import Mathlib

/-!
Shallow embedding of the `flow` package of micahke/mirage (src/flow/flow.go):
a workflow engine of chained nodes (action, conditional, sequence, parallel,
nested flow) with flow-level and node-level interceptors.

Go closures are represented by identifiers resolved through an environment
`Env`: `act` gives the result of an action function, `cond` the value of a
predicate, `intc` the result of an interceptor (the second argument is the
name of the node passed to it, `none` for the nil node of flow-level calls).
Executions are modelled as a trace of observable events (function, predicate
and interceptor invocations) paired with the returned error, errors being
strings standing in for Go `error` values.

The only concurrency is in `parallelNode.run` (flow.go lines 288-325): each
sub-node runs in its own goroutine, failures are sent on a buffered channel,
and the consumer loop returns the first failure received. The nondeterministic
delivery order of that channel is made explicit: `Env.order` names, for each
parallel node, the real-time order in which the units complete (a permutation
of their indices; anything else falls back to list order). `parConsume`
models the consumer loop over unit-completion events.
-/

namespace Mirage

abbrev Err := String

/-- Observable events of an execution: an interceptor call (with the name of
the node it was handed, `none` for flow-level calls), an action function
call, and a predicate evaluation. -/
inductive Event where
  | intcCall (iid : Nat) (node : Option String)
  | actCall (fid : Nat) (node : String)
  | condCall (cid : Nat) (node : String) (result : Bool)
deriving DecidableEq, Repr

/-- Outcomes of the Go closures wired into a flow, plus the completion order
of the units of each parallel node (keyed by the node's name). -/
structure Env where
  act : Nat → Option Err
  cond : Nat → Bool
  intc : Nat → Option String → Option Err
  order : String → List Nat

/-- Model of the consumer loop of `parallelNode.run` (flow.go lines 315-319)
over unit-completion events in real-time order. A unit completing without
error sends nothing on the channel, so the loop keeps waiting; the first
failing unit's error is received and returned at once. Returns the returned
error together with the units that have completed by the time the loop can
return. -/
def parConsume : List (Nat × Option Err) → Option Err × List Nat
  | [] => (none, [])
  | (i, none) :: rest =>
    let r := parConsume rest
    (r.1, i :: r.2)
  | (i, some e) :: _ => (some e, [i])

/-- Whether `l` enumerates `0, ..., n-1` exactly once each. -/
def isPermOfRange (l : List Nat) (n : Nat) : Bool :=
  l.length == n && (List.range n).all (fun i => l.contains i)

/-- Completion order used for a parallel node: the order proposed by the
environment when it is a permutation of the unit indices, list order
otherwise. -/
def validOrder (l : List Nat) (n : Nat) : List Nat :=
  if isPermOfRange l n then l else List.range n

/-- The interceptor loop at the head of every node `run` (and of `Flow.Run`):
call each interceptor in list order, abort on the first failure. -/
def runIntcs (env : Env) (ints : List Nat) (nodeName : Option String) :
    List Event × Option Err :=
  match ints with
  | [] => ([], none)
  | i :: rest =>
    match env.intc i nodeName with
    | some e => ([Event.intcCall i nodeName], some e)
    | none =>
      let r := runIntcs env rest nodeName
      (Event.intcCall i nodeName :: r.1, r.2)

/-- The node variants of flow.go. Every variant but `flowNode` carries the
`next` successor of its embedded `baseNode`; `flowNode` is a `Flow` used as a
node (its `run` ignores the interceptors passed in and uses its own lists). -/
inductive Node where
  | doNode (name : String) (fid : Nat) (next : Option Node)
  | conditionalNode (name : String) (cid : Nat) (trueBranch : Option Node)
      (next : Option Node)
  | sequenceNode (name : String) (nodes : List (Option Node)) (next : Option Node)
  | parallelNode (name : String) (nodes : List (Option Node)) (next : Option Node)
  | flowNode (name : String) (head : Option Node)
      (flowInterceptors : List Nat) (nodeInterceptors : List Nat)

mutual

/-- `run` of each node variant, translated clause by clause from flow.go:
`doNode.run` (44-57), `conditionalNode.run` (67-83), `sequenceNode.run`
(92-104, which invokes no interceptor on the sequence node itself),
`parallelNode.run` (288-325) and `Flow.run` (119-131). -/
def Node.run : Node → Env → List Nat → List Event × Option Err
  | .doNode nm fid next, env, ints =>
    let ri := runIntcs env ints (some nm)
    match ri.2 with
    | some e => (ri.1, some e)
    | none =>
      match env.act fid with
      | some e => (ri.1 ++ [Event.actCall fid nm], some e)
      | none =>
        let rn := runNext next env ints
        (ri.1 ++ Event.actCall fid nm :: rn.1, rn.2)
  | .conditionalNode nm cid br next, env, ints =>
    let ri := runIntcs env ints (some nm)
    match ri.2 with
    | some e => (ri.1, some e)
    | none =>
      let b := env.cond cid
      match br, b with
      | some tb, true =>
        let rb := tb.run env ints
        match rb.2 with
        | some e => (ri.1 ++ Event.condCall cid nm true :: rb.1, some e)
        | none =>
          let rn := runNext next env ints
          (ri.1 ++ Event.condCall cid nm true :: (rb.1 ++ rn.1), rn.2)
      | _, _ =>
        let rn := runNext next env ints
        (ri.1 ++ Event.condCall cid nm b :: rn.1, rn.2)
  | .sequenceNode _ nodes next, env, ints =>
    let rs := runSeqList nodes env ints
    match rs.2 with
    | some e => (rs.1, some e)
    | none =>
      let rn := runNext next env ints
      (rs.1 ++ rn.1, rn.2)
  | .parallelNode nm nodes next, env, ints =>
    let ri := runIntcs env ints (some nm)
    match ri.2 with
    | some e => (ri.1, some e)
    | none =>
      let subs := runParList nodes env ints
      let traces := (subs.map Prod.fst).flatten
      let results := subs.map Prod.snd
      let ord := validOrder (env.order nm) results.length
      match (parConsume (ord.map (fun i => (i, results.getD i none)))).1 with
      | some e => (ri.1 ++ traces, some e)
      | none =>
        let rn := runNext next env ints
        (ri.1 ++ (traces ++ rn.1), rn.2)
  | .flowNode _ head fints nints, env, _ =>
    match head with
    | none => ([], none)
    | some h =>
      let rf := runIntcs env fints none
      match rf.2 with
      | some e => (rf.1, some e)
      | none =>
        let rh := h.run env nints
        (rf.1 ++ rh.1, rh.2)

/-- Running an optional successor: a nil `next` ends the chain. -/
def runNext : Option Node → Env → List Nat → List Event × Option Err
  | none, _, _ => ([], none)
  | some n, env, ints => n.run env ints

/-- The loop of `sequenceNode.run`: run each non-nil sub-node in order,
abort at the first failure. -/
def runSeqList : List (Option Node) → Env → List Nat → List Event × Option Err
  | [], _, _ => ([], none)
  | none :: rest, env, ints => runSeqList rest env ints
  | some n :: rest, env, ints =>
    let r := n.run env ints
    match r.2 with
    | some e => (r.1, some e)
    | none =>
      let rr := runSeqList rest env ints
      (r.1 ++ rr.1, rr.2)

/-- The units spawned by `parallelNode.run`: every sub-node (a nil entry
included, whose goroutine only calls `wg.Done`) yields a trace and a result. -/
def runParList : List (Option Node) → Env → List Nat →
    List (List Event × Option Err)
  | [], _, _ => []
  | none :: rest, env, ints => ([], none) :: runParList rest env ints
  | some n :: rest, env, ints => n.run env ints :: runParList rest env ints

end

/-- A flow (flow.go 110-116): the head of its node chain plus its interceptor
lists. The Go struct also keeps a `tail` pointer; by the chain invariant the
tail is the last node reachable from `head` through `next`, so operations on
the tail are modelled by walking to the end of the chain. -/
structure Flow where
  name : String
  head : Option Node
  flowInterceptors : List Nat
  nodeInterceptors : List Nat

/-- A flow used as a node (Go passes the `*Flow` itself, which satisfies the
`Node` interface). -/
def Flow.toNode (f : Flow) : Node :=
  Node.flowNode f.name f.head f.flowInterceptors f.nodeInterceptors

/-- `New` (flow.go 148-152): empty chain, empty interceptor lists. -/
def New (name : String) : Flow :=
  ⟨name, none, [], []⟩

/-- `baseNode.setNext` applied at the tail of a chain: since the Go `tail`
pointer always denotes the last node of the chain, `f.tail.setNext(node)` is
modelled by walking `next` links to the end and setting the final `next`.
For a `flowNode`, `Flow.setNext` (flow.go 133-138) forwards to the inner
chain's tail when the inner chain is non-empty and drops the node otherwise. -/
def setLastNext : Node → Node → Node
  | .doNode nm fid none, x => .doNode nm fid (some x)
  | .doNode nm fid (some nx), x => .doNode nm fid (some (setLastNext nx x))
  | .conditionalNode nm cid br none, x => .conditionalNode nm cid br (some x)
  | .conditionalNode nm cid br (some nx), x =>
      .conditionalNode nm cid br (some (setLastNext nx x))
  | .sequenceNode nm nodes none, x => .sequenceNode nm nodes (some x)
  | .sequenceNode nm nodes (some nx), x =>
      .sequenceNode nm nodes (some (setLastNext nx x))
  | .parallelNode nm nodes none, x => .parallelNode nm nodes (some x)
  | .parallelNode nm nodes (some nx), x =>
      .parallelNode nm nodes (some (setLastNext nx x))
  | .flowNode nm none fi ni, _ => .flowNode nm none fi ni
  | .flowNode nm (some h) fi ni, x => .flowNode nm (some (setLastNext h x)) fi ni

/-- `appendNode` (flow.go 214-222). -/
def Flow.appendNode (f : Flow) (node : Node) : Flow :=
  match f.head with
  | none => { f with head := some node }
  | some h => { f with head := some (setLastNext h node) }

/-- `appendFlow` (flow.go 185-196): splice the argument flow's chain onto the
current tail (or make it the whole chain when the current chain is empty);
the argument's interceptor lists are dropped. -/
def Flow.appendFlow (f : Flow) (g : Flow) : Flow :=
  match g.head with
  | none => f
  | some gh =>
    match f.head with
    | none => { f with head := some gh }
    | some h => { f with head := some (setLastNext h gh) }

/-- `Then` (flow.go 173-183): a `*Flow` argument is spliced via `appendFlow`,
any other node is appended. -/
def Flow.Then (f : Flow) (node : Node) : Flow :=
  match node with
  | .flowNode nm h fi ni => f.appendFlow ⟨nm, h, fi, ni⟩
  | n => f.appendNode n

/-- `Flow.Do` (flow.go 159-170). -/
def Flow.Do (f : Flow) (name : String) (fid : Nat) : Flow :=
  f.appendNode (.doNode name fid none)

/-- `If` (flow.go 199-211). -/
def Flow.If (f : Flow) (name : String) (cid : Nat) (trueBranch : Option Node) :
    Flow :=
  f.appendNode (.conditionalNode name cid trueBranch none)

/-- The free `Do` (flow.go 243-252). -/
def Do (name : String) (fid : Nat) : Node :=
  .doNode name fid none

/-- `InSequence` (flow.go 225-240): nil entries are filtered out. -/
def InSequence (name : String) (nodes : List (Option Node)) : Node :=
  .sequenceNode name (nodes.filter Option.isSome) none

/-- `InParallel` (flow.go 328-343): nil entries are filtered out. -/
def InParallel (name : String) (nodes : List (Option Node)) : Node :=
  .parallelNode name (nodes.filter Option.isSome) none

/-- `AddFlowInterceptor` (flow.go 270-273). -/
def Flow.AddFlowInterceptor (f : Flow) (i : Nat) : Flow :=
  { f with flowInterceptors := f.flowInterceptors ++ [i] }

/-- `AddNodeInterceptor` (flow.go 276-279). -/
def Flow.AddNodeInterceptor (f : Flow) (i : Nat) : Flow :=
  { f with nodeInterceptors := f.nodeInterceptors ++ [i] }

/-- `Flow.Run` (flow.go 255-267): an empty chain succeeds before any
interceptor runs; otherwise the flow-level interceptors run once each with a
nil node argument, aborting on the first failure, and then the head node runs
with the node-level interceptor list. -/
def Flow.Run (f : Flow) (env : Env) : List Event × Option Err :=
  match f.head with
  | none => ([], none)
  | some h =>
    let rf := runIntcs env f.flowInterceptors none
    match rf.2 with
    | some e => (rf.1, some e)
    | none =>
      let rh := h.run env f.nodeInterceptors
      (rf.1 ++ rh.1, rh.2)

/-- The names of the nodes along a `next` chain (the chain a flow's `head`
and `tail` delimit). A nested `flowNode` has no `next` field of its own, so
it ends the chain. -/
def chainNames : Option Node → List String
  | none => []
  | some (.doNode nm _ nx) => nm :: chainNames nx
  | some (.conditionalNode nm _ _ nx) => nm :: chainNames nx
  | some (.sequenceNode nm _ nx) => nm :: chainNames nx
  | some (.parallelNode nm _ nx) => nm :: chainNames nx
  | some (.flowNode nm _ _ _) => [nm]

/-- The number of nodes along a `next` chain. -/
def chainLen : Option Node → Nat
  | none => 0
  | some (.doNode _ _ nx) => 1 + chainLen nx
  | some (.conditionalNode _ _ _ nx) => 1 + chainLen nx
  | some (.sequenceNode _ _ nx) => 1 + chainLen nx
  | some (.parallelNode _ _ nx) => 1 + chainLen nx
  | some (.flowNode _ _ _ _) => 1

/-- No node along the top-level `next` chain is a nested `flowNode` (the
builder API only ever places non-flow nodes in chain position, since `Then`
splices flows instead of appending them). -/
def noFlowTop : Option Node → Bool
  | none => true
  | some (.doNode _ _ nx) => noFlowTop nx
  | some (.conditionalNode _ _ _ nx) => noFlowTop nx
  | some (.sequenceNode _ _ nx) => noFlowTop nx
  | some (.parallelNode _ _ nx) => noFlowTop nx
  | some (.flowNode _ _ _ _) => false

/-- The chain of action nodes `Flow.Do` builds for the given function ids,
each named after its id. -/
def chainOf : List Nat → Option Node :=
  List.foldr (fun i nx => some (.doNode (toString i) i nx)) none

/-- A flow built by `New` followed by one `Flow.Do` call per function id. -/
def mkActions (nm : String) (fids : List Nat) : Flow :=
  fids.foldl (fun f i => f.Do (toString i) i) (New nm)

/-- The node names handed to interceptor `i` along a trace, in order. -/
def filterIntc (i : Nat) (t : List Event) : List (Option String) :=
  t.filterMap (fun ev =>
    match ev with
    | .intcCall j s => if j = i then some s else none
    | _ => none)

mutual

/-- No `flowNode` occurs anywhere in the node (chains, branches or sub-node
lists included). -/
def noNestedFlow : Node → Bool
  | .doNode _ _ nx => noNestedFlowNext nx
  | .conditionalNode _ _ br nx => noNestedFlowNext br && noNestedFlowNext nx
  | .sequenceNode _ nodes nx => noNestedFlowList nodes && noNestedFlowNext nx
  | .parallelNode _ nodes nx => noNestedFlowList nodes && noNestedFlowNext nx
  | .flowNode _ _ _ _ => false

def noNestedFlowNext : Option Node → Bool
  | none => true
  | some n => noNestedFlow n

def noNestedFlowList : List (Option Node) → Bool
  | [] => true
  | o :: rest => noNestedFlowNext o && noNestedFlowList rest

end

mutual

/-- The nodes that invoke the node-level interceptors during a successful
run, in the order they are visited: action, conditional and parallel nodes
invoke them on themselves (flow.go 45-49, 68-72, 289-293) while a sequence
node does not (92-104, its loop body only forwards them to its sub-nodes),
and a nested `flowNode` replaces them with its own lists (119-131). -/
def visitsOk : Node → Env → List (Option String)
  | .doNode nm _ nx, env => some nm :: visitsOkNext nx env
  | .conditionalNode nm cid br nx, env =>
      some nm ::
        ((if env.cond cid then visitsOkNext br env else []) ++ visitsOkNext nx env)
  | .sequenceNode _ nodes nx, env => visitsOkList nodes env ++ visitsOkNext nx env
  | .parallelNode nm nodes nx, env =>
      some nm :: (visitsOkList nodes env ++ visitsOkNext nx env)
  | .flowNode _ _ _ _, _ => []

def visitsOkNext : Option Node → Env → List (Option String)
  | none, _ => []
  | some n, env => visitsOk n env

def visitsOkList : List (Option Node) → Env → List (Option String)
  | [], _ => []
  | o :: rest, env => visitsOkNext o env ++ visitsOkList rest env

end

/-- The trace of a fully successful action chain under node-level
interceptors `ints`: per action, one interceptor call per listed interceptor
followed by the action's own function call. -/
def actTrace (ints : List Nat) (l : List Nat) : List Event :=
  (l.map (fun i =>
    ints.map (fun j => Event.intcCall j (some (toString i))) ++
      [Event.actCall i (toString i)])).flatten

/-- `chainOf` extended with an arbitrary final node in place of the nil
chain end. -/
def chainOfExt (l : List Nat) (x : Node) : Option Node :=
  List.foldr (fun j nx => some (.doNode (toString j) j nx)) (some x) l

/-- The `name` field of a node. -/
def Node.nodeName : Node → String
  | .doNode nm _ _ => nm
  | .conditionalNode nm _ _ _ => nm
  | .sequenceNode nm _ _ => nm
  | .parallelNode nm _ _ => nm
  | .flowNode nm _ _ _ => nm

/-- Whether the node's `run` invokes the node-level interceptors on the node
itself: action, conditional and parallel nodes do (flow.go 45-49, 68-72,
289-293); a sequence node (92-104) and a nested flow (119-131) do not. -/
def selfIntc : Node → Bool
  | .doNode _ _ _ => true
  | .conditionalNode _ _ _ _ => true
  | .parallelNode _ _ _ => true
  | .sequenceNode _ _ _ => false
  | .flowNode _ _ _ _ => false

/-- An environment in which every action and every interceptor succeeds and
every predicate is true. -/
def env0 : Env :=
  ⟨fun _ => none, fun _ => true, fun _ _ => none, fun _ => []⟩
/-- An environment in which action 0 fails with "e1", everything else
succeeds, and parallel units complete in index order. -/
def envC1 : Env :=
  ⟨fun i => if i = 0 then some "e1" else none, fun _ => true,
    fun _ _ => none, fun _ => [0, 1]⟩
/-- An environment in which both of the actions 0 and 1 fail ("ea"
respectively "eb"), interceptors succeed, and parallel units complete in the
order unit 1 first, unit 0 second. -/
def envC2 : Env :=
  ⟨fun i => if i = 0 then some "ea" else some "eb", fun _ => true,
    fun _ _ => none, fun _ => [1, 0]⟩
/-- An environment in which action 1 fails with "boom", every other action
succeeds, every predicate is true and every interceptor succeeds. -/
def envC3 : Env :=
  ⟨fun i => if i = 1 then some "boom" else none, fun _ => true,
    fun _ _ => none, fun _ => []⟩
/-- An environment in which interceptor 9 always fails with "denied" and
everything else succeeds. -/
def envC6 : Env :=
  ⟨fun _ => none, fun _ => true,
    fun i _ => if i = 9 then some "denied" else none, fun _ => []⟩

theorem runIntcs_ok (env : Env) (ints : List Nat) (s : Option String)
    (h : ∀ i ∈ ints, env.intc i s = none) :
    runIntcs env ints s = (ints.map (fun i => Event.intcCall i s), none) := by
  induction ints with
  | nil => rfl
  | cons i rest ih =>
    have hi : env.intc i s = none := h i (List.mem_cons_self i rest)
    simp only [runIntcs, hi, List.map_cons]
    rw [ih (fun j hj => h j (List.mem_cons_of_mem i hj))]

theorem runIntcs_fail (env : Env) (pre post : List Nat) (bad : Nat)
    (s : Option String) (e : Err)
    (hpre : ∀ i ∈ pre, env.intc i s = none) (hbad : env.intc bad s = some e) :
    runIntcs env (pre ++ bad :: post) s
      = ((pre ++ [bad]).map (fun i => Event.intcCall i s), some e) := by
  induction pre with
  | nil => simp only [List.nil_append, runIntcs, hbad, List.map_cons, List.map_nil]
  | cons i rest ih =>
    have hi : env.intc i s = none := hpre i (List.mem_cons_self i rest)
    have ih2 := ih (fun j hj => hpre j (List.mem_cons_of_mem i hj))
    simp only [List.cons_append, runIntcs, hi, List.append_eq, ih2, List.map_cons]

theorem runIntcs_none_trace (env : Env) (ints : List Nat) (s : Option String)
    (h : (runIntcs env ints s).2 = none) :
    (runIntcs env ints s).1 = ints.map (fun i => Event.intcCall i s) := by
  induction ints with
  | nil => rfl
  | cons i rest ih =>
    by_cases hi : env.intc i s = none
    · simp only [runIntcs, hi, List.map_cons] at h ⊢
      rw [ih h]
    · rcases Option.ne_none_iff_exists.mp hi with ⟨e, he⟩
      simp only [runIntcs, ← he] at h
      exact absurd h (Option.some_ne_none e)

theorem setLastNext_chainOf (i : Nat) (l : List Nat) (x : Node) :
    setLastNext (Node.doNode (toString i) i (chainOf l)) x
      = Node.doNode (toString i) i (chainOfExt l x) := by
  induction l generalizing i with
  | nil => rfl
  | cons j rest ih =>
    show setLastNext (Node.doNode (toString i) i
      (some (Node.doNode (toString j) j (chainOf rest)))) x = _
    rw [setLastNext, ih j]
    rfl

theorem chainOf_cons (i : Nat) (l : List Nat) :
    chainOf (i :: l) = some (Node.doNode (toString i) i (chainOf l)) := rfl

theorem chainOfExt_chainOf (l1 l2 : List Nat) (h2 : Node)
    (h : chainOf l2 = some h2) : chainOfExt l1 h2 = chainOf (l1 ++ l2) := by
  induction l1 with
  | nil => simp only [chainOfExt, List.foldr_nil, List.nil_append, h]
  | cons i rest ih =>
    show some (Node.doNode (toString i) i (chainOfExt rest h2))
      = chainOf (i :: (rest ++ l2))
    rw [ih, chainOf_cons]

theorem appendNode_doNode_chainOf (f : Flow) (l : List Nat) (i : Nat)
    (hf : f.head = chainOf l) :
    f.appendNode (Node.doNode (toString i) i none)
      = { f with head := chainOf (l ++ [i]) } := by
  match l with
  | [] =>
    simp only [Flow.appendNode, hf, chainOf, List.foldr_nil, List.nil_append]
    rfl
  | j :: rest =>
    simp only [Flow.appendNode, hf, chainOf_cons]
    rw [setLastNext_chainOf j rest (Node.doNode (toString i) i none)]
    have : chainOfExt rest (Node.doNode (toString i) i none)
        = chainOf (rest ++ [i]) := chainOfExt_chainOf rest [i] _ rfl
    rw [this]
    rfl

theorem mkActions_eq (nm : String) (fids : List Nat) :
    mkActions nm fids = ⟨nm, chainOf fids, [], []⟩ := by
  have key : ∀ (fids acc : List Nat),
      List.foldl (fun f i => f.Do (toString i) i)
        (⟨nm, chainOf acc, [], []⟩ : Flow) fids
        = ⟨nm, chainOf (acc ++ fids), [], []⟩ := by
    intro fids
    induction fids with
    | nil => intro acc; simp only [List.foldl_nil, List.append_nil]
    | cons i rest ih =>
      intro acc
      simp only [List.foldl_cons]
      rw [show (Flow.Do ⟨nm, chainOf acc, [], []⟩ (toString i) i)
        = Flow.appendNode ⟨nm, chainOf acc, [], []⟩
            (Node.doNode (toString i) i none) from rfl]
      rw [appendNode_doNode_chainOf _ acc i rfl]
      have := ih (acc ++ [i])
      simp only [List.append_assoc, List.singleton_append] at this
      exact this
  have := key fids []
  simpa only [List.nil_append] using this

theorem runChain_ok (l : List Nat) (env : Env) (ints : List Nat)
    (hi : ∀ j ∈ ints, ∀ s, env.intc j s = none)
    (ha : ∀ i ∈ l, env.act i = none) :
    runNext (chainOf l) env ints = (actTrace ints l, none) := by
  induction l with
  | nil => rfl
  | cons i rest ih =>
    have hact : env.act i = none := ha i (List.mem_cons_self i rest)
    simp only [chainOf_cons, runNext, Node.run]
    rw [runIntcs_ok env ints (some (toString i)) (fun j hj => hi j hj _)]
    simp only [hact]
    rw [ih (fun j hj => ha j (List.mem_cons_of_mem i hj))]
    simp only [actTrace, List.map_cons, List.flatten_cons, List.append_assoc,
      List.singleton_append]

theorem runChain_fail (pre post : List Nat) (k : Nat) (e : Err) (env : Env)
    (ints : List Nat)
    (hi : ∀ j ∈ ints, ∀ s, env.intc j s = none)
    (hpre : ∀ i ∈ pre, env.act i = none) (hk : env.act k = some e) :
    runNext (chainOf (pre ++ k :: post)) env ints
      = (actTrace ints pre ++
          (ints.map (fun j => Event.intcCall j (some (toString k))) ++
            [Event.actCall k (toString k)]), some e) := by
  induction pre with
  | nil =>
    simp only [List.nil_append, chainOf_cons, runNext, Node.run]
    rw [runIntcs_ok env ints (some (toString k)) (fun j hj => hi j hj _)]
    simp only [hk, actTrace, List.map_nil, List.flatten_nil, List.nil_append]
  | cons i rest ih =>
    have hact : env.act i = none := hpre i (List.mem_cons_self i rest)
    simp only [List.cons_append, chainOf_cons, runNext, Node.run]
    rw [runIntcs_ok env ints (some (toString i)) (fun j hj => hi j hj _)]
    simp only [hact]
    rw [ih (fun j hj => hpre j (List.mem_cons_of_mem i hj))]
    simp only [actTrace, List.map_cons, List.flatten_cons, List.append_assoc,
      List.cons_append, List.singleton_append, List.nil_append]

theorem actTrace_nil (l : List Nat) :
    actTrace [] l = l.map (fun i => Event.actCall i (toString i)) := by
  induction l with
  | nil => rfl
  | cons i rest ih =>
    simp only [actTrace, List.map_cons, List.flatten_cons, List.map_nil,
      List.nil_append, List.singleton_append] at ih ⊢
    rw [ih]

theorem FlowRun_no_intcs (nm : String) (ho : Option Node) (env : Env) :
    Flow.Run ⟨nm, ho, [], []⟩ env = runNext ho env [] := by
  cases ho with
  | none => rfl
  | some h => rfl

/-- C3: in a flow that is a chain of action nodes where every action before
`k` succeeds and action `k` fails with error `e`, `Run` returns exactly `e`,
the actions before `k` each execute exactly once (in chain order) before the
failure, `k` itself executes and fails, and none of the actions after `k`
executes: the trace is exactly one `actCall` per action up to and including
`k`. -/
theorem C3_action_chain_aborts_at_failure (nm : String) (pre post : List Nat)
    (k : Nat) (e : Err) (env : Env)
    (hpre : ∀ i ∈ pre, env.act i = none) (hk : env.act k = some e) :
    Flow.Run (mkActions nm (pre ++ k :: post)) env
      = ((pre ++ [k]).map (fun i => Event.actCall i (toString i)), some e) := by
  rw [mkActions_eq, FlowRun_no_intcs,
    runChain_fail pre post k e env [] (by intro j hj; cases hj) hpre hk]
  simp only [actTrace_nil, List.map_nil, List.nil_append, List.map_append,
    List.map_cons]

/-- Witness for C3 at the concrete chain 0; 1; 2 where action 1 fails. -/
theorem C3_witness :
    (∀ i ∈ [0], envC3.act i = none) ∧ envC3.act 1 = some "boom" ∧
      Flow.Run (mkActions "w" ([0] ++ 1 :: [2])) envC3
        = (([0] ++ [1]).map (fun i => Event.actCall i (toString i)),
            some "boom") :=
  ⟨by decide, by decide,
    C3_action_chain_aborts_at_failure "w" [0] [2] 1 "boom" envC3
      (by decide) (by decide)⟩

/-- C6: in a non-empty flow, if a flow-level interceptor fails then `Run`
returns that interceptor's error; the trace consists of exactly the
flow-level interceptor calls up to and including the failing one, so no later
flow-level interceptor runs and the head node (hence the whole chain) never
executes. -/
theorem C6_flow_interceptor_failure_stops_run (nm : String) (h : Node)
    (pre post ni : List Nat) (bad : Nat) (e : Err) (env : Env)
    (hpre : ∀ i ∈ pre, env.intc i none = none)
    (hbad : env.intc bad none = some e) :
    Flow.Run ⟨nm, some h, pre ++ bad :: post, ni⟩ env
      = ((pre ++ [bad]).map (fun i => Event.intcCall i none), some e) := by
  have hr := runIntcs_fail env pre post bad none e hpre hbad
  simp only [Flow.Run, hr]

/-- Witness for C6: a one-action flow whose flow-level interceptors are
[3, 9, 5], where interceptor 9 fails. -/
theorem C6_witness :
    (∀ i ∈ [3], envC6.intc i none = none) ∧ envC6.intc 9 none = some "denied" ∧
      Flow.Run ⟨"f", some (Do "a" 0), [3] ++ 9 :: [5], [7]⟩ envC6
        = (([3] ++ [9]).map (fun i => Event.intcCall i none), some "denied") :=
  ⟨by decide, by decide,
    C6_flow_interceptor_failure_stops_run "f" (Do "a" 0) [3] [5] [7] 9
      "denied" envC6 (by decide) (by decide)⟩

/-- C8: running a flow whose chain is empty succeeds and performs no work at
all — the trace is empty, so neither the flow-level interceptors, nor any
node-level interceptor, nor any node function is invoked, whatever the
interceptor lists contain. -/
theorem C8_empty_flow_is_a_no_op (nm : String) (fi ni : List Nat) (env : Env) :
    Flow.Run ⟨nm, none, fi, ni⟩ env = ([], none) := rfl

theorem parallel_run_eq (nm : String) (nodes : List (Option Node))
    (next : Option Node) (env : Env) (ints : List Nat)
    (hi : (runIntcs env ints (some nm)).2 = none) :
    (Node.parallelNode nm nodes next).run env ints
      = (match (parConsume ((validOrder (env.order nm)
            ((runParList nodes env ints).map Prod.snd).length).map
              (fun i => (i, ((runParList nodes env ints).map Prod.snd).getD i none)))).1 with
         | some e => ((runIntcs env ints (some nm)).1 ++
             (((runParList nodes env ints).map Prod.fst).flatten), some e)
         | none =>
           ((runIntcs env ints (some nm)).1 ++
             ((((runParList nodes env ints).map Prod.fst).flatten) ++
               (runNext next env ints).1), (runNext next env ints).2)) := by
  simp only [Node.run, hi]

theorem parConsume_fst_eq_none (evs : List (Nat × Option Err))
    (h : (parConsume evs).1 = none) : ∀ p ∈ evs, p.2 = none := by
  induction evs with
  | nil => intro p hp; cases hp
  | cons q rest ih =>
    match q with
    | (i, none) =>
      intro p hp
      rcases List.mem_cons.mp hp with rfl | hp2
      · rfl
      · exact ih (by simpa [parConsume] using h) p hp2
    | (i, some e) => simp [parConsume] at h

theorem parConsume_fst_none (evs : List (Nat × Option Err))
    (h : ∀ p ∈ evs, p.2 = none) : (parConsume evs).1 = none := by
  induction evs with
  | nil => rfl
  | cons q rest ih =>
    match q with
    | (i, oe) =>
      have hq : oe = none := h (i, oe) (List.mem_cons_self _ _)
      subst hq
      simp only [parConsume]
      exact ih (fun p hp => h p (List.mem_cons_of_mem _ hp))

theorem parConsume_fst_mem (evs : List (Nat × Option Err)) (e : Err)
    (h : (parConsume evs).1 = some e) : ∃ i, (i, some e) ∈ evs := by
  induction evs with
  | nil => simp [parConsume] at h
  | cons q rest ih =>
    match q with
    | (i, none) =>
      have h2 : (parConsume rest).1 = some e := by simpa [parConsume] using h
      rcases ih h2 with ⟨j, hj⟩
      exact ⟨j, List.mem_cons_of_mem _ hj⟩
    | (i, some e2) =>
      have he : e2 = e := by simpa [parConsume] using h
      exact ⟨i, he ▸ List.mem_cons_self _ _⟩

theorem validOrder_mem (l : List Nat) (n i : Nat) (hi : i < n) :
    i ∈ validOrder l n := by
  unfold validOrder
  by_cases hp : isPermOfRange l n = true
  · simp only [hp, if_true]
    have h2 := (Bool.and_eq_true _ _).mp hp |>.2
    have h3 := List.all_eq_true.mp h2 i (List.mem_range.mpr hi)
    exact List.mem_of_elem_eq_true h3
  · simp only [hp, if_false]
    exact List.mem_range.mpr hi

theorem validOrder_zero (l : List Nat) : validOrder l 0 = [] := by
  cases l <;> rfl

/-- C2: when a parallel node's interceptors succeed, if one or more of its
units fail then its `run` returns exactly one error and that error is one of
the units' own errors (never `nil` and never a synthesized one), whichever
delivery order the units complete in; and if no unit fails, `run` proceeds to
the node's own `next` (returning success if there is none). -/
theorem C2_parallel_reports_one_of_the_failures (nm : String)
    (nodes : List (Option Node)) (next : Option Node) (env : Env)
    (ints : List Nat) (hi : (runIntcs env ints (some nm)).2 = none) :
    ((runParList nodes env ints).filterMap Prod.snd ≠ [] →
      ∃ e, e ∈ (runParList nodes env ints).filterMap Prod.snd ∧
        ((Node.parallelNode nm nodes next).run env ints).2 = some e)
    ∧ ((runParList nodes env ints).filterMap Prod.snd = [] →
      ((Node.parallelNode nm nodes next).run env ints).2
        = (runNext next env ints).2) := by
  have hrun := parallel_run_eq nm nodes next env ints hi
  constructor
  · intro hne
    rcases hcp : (parConsume ((validOrder (env.order nm)
        ((runParList nodes env ints).map Prod.snd).length).map
          (fun i => (i, ((runParList nodes env ints).map Prod.snd).getD i none)))).1
      with _ | e
    · exfalso
      have hall := parConsume_fst_eq_none _ hcp
      apply hne
      apply List.filterMap_eq_nil_iff.mpr
      intro a ha
      have hmem : a.2 ∈ (runParList nodes env ints).map Prod.snd :=
        List.mem_map_of_mem _ ha
      rcases List.mem_iff_getElem.mp hmem with ⟨j, hj, hxj⟩
      have hjord : j ∈ validOrder (env.order nm)
          ((runParList nodes env ints).map Prod.snd).length :=
        validOrder_mem _ _ j hj
      have hev := hall _ (List.mem_map_of_mem _ hjord)
      simp only at hev
      rw [List.getD_eq_getElem _ _ hj] at hev
      rw [← hxj]; exact hev
    · refine ⟨e, ?_, ?_⟩
      · rcases parConsume_fst_mem _ e hcp with ⟨i, hi2⟩
        rcases List.mem_map.mp hi2 with ⟨j, hj, hpair⟩
        have hsnd : ((runParList nodes env ints).map Prod.snd).getD j none
            = some e := congrArg Prod.snd hpair
        by_cases hjl : j < ((runParList nodes env ints).map Prod.snd).length
        · rw [List.getD_eq_getElem _ _ hjl] at hsnd
          have hmem : some e ∈ (runParList nodes env ints).map Prod.snd :=
            hsnd ▸ List.getElem_mem hjl
          rcases List.mem_map.mp hmem with ⟨r, hr, hr2⟩
          exact List.mem_filterMap.mpr ⟨r, hr, hr2⟩
        · rw [List.getD_eq_default _ _ (Nat.le_of_not_lt hjl)] at hsnd
          cases hsnd
      · rw [hrun, hcp]
  · intro hnil
    have hall : ∀ x ∈ (runParList nodes env ints).map Prod.snd, x = none := by
      intro x hx
      rcases List.mem_map.mp hx with ⟨r, hr, hr2⟩
      rw [← hr2]
      exact List.forall_none_of_filterMap_eq_nil hnil r hr
    have hcp : (parConsume ((validOrder (env.order nm)
        ((runParList nodes env ints).map Prod.snd).length).map
          (fun i => (i, ((runParList nodes env ints).map Prod.snd).getD i none)))).1
        = none := by
      apply parConsume_fst_none
      intro p hp
      rcases List.mem_map.mp hp with ⟨j, hj, hpj⟩
      rw [← hpj]
      simp only
      by_cases hjl : j < ((runParList nodes env ints).map Prod.snd).length
      · rw [List.getD_eq_getElem _ _ hjl]
        exact hall _ (List.getElem_mem hjl)
      · exact List.getD_eq_default _ _ (Nat.le_of_not_lt hjl)
    rw [hrun, hcp]

/-- Witness for C2: both units of a two-unit parallel node fail and the
completion order is unit 1 before unit 0; the run reports one of the two
errors. -/
theorem C2_witness :
    ((runIntcs envC2 [] (some "p")).2 = none) ∧
      ((runParList [some (Do "a" 0), some (Do "b" 1)] envC2 []).filterMap
          Prod.snd ≠ [] →
        ∃ e, e ∈ (runParList [some (Do "a" 0), some (Do "b" 1)] envC2
            []).filterMap Prod.snd ∧
          ((Node.parallelNode "p" [some (Do "a" 0), some (Do "b" 1)]
              none).run envC2 []).2 = some e) :=
  ⟨rfl, (C2_parallel_reports_one_of_the_failures "p"
    [some (Do "a" 0), some (Do "b" 1)] none envC2 [] rfl).1⟩

/-- C1 (failing input for the claim): a parallel node with unit 0 failing
with "e1" and unit 1 succeeding, where unit 0 completes first. The consumer
loop of `parallelNode.run` receives "e1" and returns it right away: by the
time the call can return, only unit 0 has completed — unit 1, still running,
is not waited for, contrary to the claim (and to the function's own doc
comment) that `run` waits for every unit to finish before it may return. -/
theorem C1_parallel_can_return_before_all_units_finish :
    parConsume [(0, some "e1"), (1, none)] = (some "e1", [0])
    ∧ ((InParallel "p" [some (Do "a" 0), some (Do "b" 1)]).run envC1 []).2
        = some "e1"
    ∧ (1 : Nat) ∉ (parConsume [(0, some "e1"), (1, none)]).2 := by
  refine ⟨rfl, rfl, by decide⟩

/-- C10: `InSequence` and `InParallel` applied to arguments that are all nil
(or none at all) build sequence/parallel nodes with an empty sub-node list;
running such a node performs no sub-node work: the empty sequence node runs
nothing of its own and goes straight to its `next`, and the empty parallel
node runs only its interceptors and then its `next`. -/
theorem C10_empty_composites_are_pass_throughs (nm : String)
    (args : List (Option Node)) (nx : Option Node) (env : Env)
    (ints : List Nat)
    (hargs : ∀ a ∈ args, a = none)
    (hint : ∀ i ∈ ints, env.intc i (some nm) = none) :
    InSequence nm args = Node.sequenceNode nm [] none
    ∧ InParallel nm args = Node.parallelNode nm [] none
    ∧ (Node.sequenceNode nm [] nx).run env ints = runNext nx env ints
    ∧ (Node.parallelNode nm [] nx).run env ints
        = (ints.map (fun i => Event.intcCall i (some nm)) ++
            (runNext nx env ints).1, (runNext nx env ints).2) := by
  have hfilter : args.filter Option.isSome = [] := by
    apply List.filter_eq_nil_iff.mpr
    intro a ha
    rw [hargs a ha]
    simp
  have hri := runIntcs_ok env ints (some nm) hint
  refine ⟨?_, ?_, ?_, ?_⟩
  · unfold InSequence; rw [hfilter]
  · unfold InParallel; rw [hfilter]
  · rfl
  · simp only [Node.run, hri, runParList, List.map_nil, List.length_nil,
      validOrder_zero, parConsume, List.flatten_nil, List.nil_append]

/-- Witness for C10: two nil arguments, a successor action node and one
node-level interceptor. -/
theorem C10_witness :
    (∀ a ∈ ([none, none] : List (Option Node)), a = none) ∧
      (∀ i ∈ [7], env0.intc i (some "s") = none) ∧
      InSequence "s" [none, none] = Node.sequenceNode "s" [] none ∧
      (Node.parallelNode "s" [] (some (Do "b" 1))).run env0 [7]
        = ([7].map (fun i => Event.intcCall i (some "s")) ++
            (runNext (some (Do "b" 1)) env0 [7]).1,
            (runNext (some (Do "b" 1)) env0 [7]).2) := by
  have han : ∀ a ∈ ([none, none] : List (Option Node)), a = none := by
    intro a ha
    rcases List.mem_cons.mp ha with rfl | ha2
    · rfl
    · rcases List.mem_cons.mp ha2 with rfl | ha3
      · rfl
      · cases ha3
  exact ⟨han, fun i _ => rfl,
    (C10_empty_composites_are_pass_throughs "s" [none, none]
      (some (Do "b" 1)) env0 [7] han (fun i _ => rfl)).1,
    (C10_empty_composites_are_pass_throughs "s" [none, none]
      (some (Do "b" 1)) env0 [7] han (fun i _ => rfl)).2.2.2⟩

/-- C9: a flow executed as a nested node ignores the interceptor list its
parent passes in: its `run` coincides with the flow's own top-level `Run`,
which runs the flow's own flow-level interceptors (nil node argument) and
hands its own node-level interceptor list — not the parent's — to its chain. -/
theorem C9_nested_flow_uses_own_interceptors (f : Flow) (env : Env)
    (ints : List Nat) :
    (Flow.toNode f).run env ints = f.Run env := by
  cases f with
  | mk nm head fi ni =>
    cases head with
    | none => rfl
    | some h => rfl

theorem filterIntc_append (i : Nat) (t1 t2 : List Event) :
    filterIntc i (t1 ++ t2) = filterIntc i t1 ++ filterIntc i t2 := by
  simp [filterIntc, List.filterMap_append]

theorem filterIntc_actCall (i fid : Nat) (nm : String) (t : List Event) :
    filterIntc i (Event.actCall fid nm :: t) = filterIntc i t := by
  simp [filterIntc, List.filterMap_cons]

theorem filterIntc_condCall (i cid : Nat) (nm : String) (b : Bool)
    (t : List Event) :
    filterIntc i (Event.condCall cid nm b :: t) = filterIntc i t := by
  simp [filterIntc, List.filterMap_cons]

theorem filterIntc_map_intcCall (i : Nat) (ints : List Nat) (s : Option String) :
    filterIntc i (ints.map (fun j => Event.intcCall j s))
      = List.replicate (ints.count i) s := by
  induction ints with
  | nil => rfl
  | cons j rest ih =>
    simp only [List.map_cons, filterIntc, List.filterMap_cons] at ih ⊢
    by_cases hj : j = i
    · subst hj
      simp [ih, List.count_cons, List.replicate_succ]
    · simp [ih, List.count_cons, hj, Ne.symm hj]

theorem runParList_all_none (nodes : List (Option Node)) (env : Env)
    (ints : List Nat) (nm : String)
    (hpc : (parConsume ((validOrder (env.order nm)
      ((runParList nodes env ints).map Prod.snd).length).map
        (fun i => (i, ((runParList nodes env ints).map Prod.snd).getD i none)))).1
        = none) :
    ∀ r ∈ runParList nodes env ints, r.2 = none := by
  intro r hr
  have hall := parConsume_fst_eq_none _ hpc
  have hmem : r.2 ∈ (runParList nodes env ints).map Prod.snd :=
    List.mem_map_of_mem _ hr
  rcases List.mem_iff_getElem.mp hmem with ⟨j, hj, hxj⟩
  have hjord : j ∈ validOrder (env.order nm)
      ((runParList nodes env ints).map Prod.snd).length :=
    validOrder_mem _ _ j hj
  have hev := hall _ (List.mem_map_of_mem _ hjord)
  simp only at hev
  rw [List.getD_eq_getElem _ _ hj] at hev
  rw [← hxj]; exact hev

mutual

theorem filterIntc_run (n : Node) (env : Env) (ints : List Nat) (i : Nat)
    (hc : ints.count i = 1) (hnf : noNestedFlow n = true)
    (hs : (n.run env ints).2 = none) :
    filterIntc i (n.run env ints).1 = visitsOk n env := by
  match n with
  | .doNode nm fid nx =>
    rcases hri : (runIntcs env ints (some nm)).2 with _ | e
    · rcases hact : env.act fid with _ | e
      · have hs2 : (runNext nx env ints).2 = none := by
          simpa only [Node.run, hri, hact] using hs
        have ih := filterIntc_runNext nx env ints i hc hnf hs2
        simp only [Node.run, hri, hact, visitsOk]
        rw [filterIntc_append, runIntcs_none_trace env ints (some nm) hri,
          filterIntc_map_intcCall, hc, filterIntc_actCall, ih]
        rfl
      · exfalso
        simp only [Node.run, hri, hact] at hs
        exact absurd hs (Option.some_ne_none e)
    · exfalso
      simp only [Node.run, hri] at hs
      exact absurd hs (Option.some_ne_none e)
  | .conditionalNode nm cid br nx =>
    have hnf2 := Bool.and_eq_true _ _ |>.mp hnf
    rcases hri : (runIntcs env ints (some nm)).2 with _ | e
    · match br, hb : env.cond cid with
      | some tb, true =>
        rcases htb : (tb.run env ints).2 with _ | e
        · have hs2 : (runNext nx env ints).2 = none := by
            simpa only [Node.run, hri, hb, htb] using hs
          have ihb := filterIntc_run tb env ints i hc hnf2.1 htb
          have ihn := filterIntc_runNext nx env ints i hc hnf2.2 hs2
          simp only [Node.run, hri, hb, htb, visitsOk, visitsOkNext]
          rw [filterIntc_append, runIntcs_none_trace env ints (some nm) hri,
            filterIntc_map_intcCall, hc, filterIntc_condCall,
            filterIntc_append, ihb, ihn]
          rfl
        · exfalso
          simp only [Node.run, hri, hb, htb] at hs
          exact absurd hs (Option.some_ne_none e)
      | some tb, false =>
        have hs2 : (runNext nx env ints).2 = none := by
          simpa only [Node.run, hri, hb] using hs
        have ihn := filterIntc_runNext nx env ints i hc hnf2.2 hs2
        simp only [Node.run, hri, hb, visitsOk, visitsOkNext]
        rw [filterIntc_append, runIntcs_none_trace env ints (some nm) hri,
          filterIntc_map_intcCall, hc, filterIntc_condCall, ihn]
        rfl
      | none, hbv =>
        have hs2 : (runNext nx env ints).2 = none := by
          simpa only [Node.run, hri, hb] using hs
        have ihn := filterIntc_runNext nx env ints i hc hnf2.2 hs2
        simp only [Node.run, hri, hb, visitsOk, visitsOkNext]
        rw [filterIntc_append, runIntcs_none_trace env ints (some nm) hri,
          filterIntc_map_intcCall, hc, filterIntc_condCall, ihn]
        simp only [List.replicate_one, ite_self, List.singleton_append,
          List.nil_append]
    · exfalso
      simp only [Node.run, hri] at hs
      exact absurd hs (Option.some_ne_none e)
  | .sequenceNode nm nodes nx =>
    have hnf2 := Bool.and_eq_true _ _ |>.mp hnf
    rcases hsl : (runSeqList nodes env ints).2 with _ | e
    · have hs2 : (runNext nx env ints).2 = none := by
        simpa only [Node.run, hsl] using hs
      have ihl := filterIntc_runSeqList nodes env ints i hc hnf2.1 hsl
      have ihn := filterIntc_runNext nx env ints i hc hnf2.2 hs2
      simp only [Node.run, hsl, visitsOk]
      rw [filterIntc_append, ihl, ihn]
    · exfalso
      simp only [Node.run, hsl] at hs
      exact absurd hs (Option.some_ne_none e)
  | .parallelNode nm nodes nx =>
    have hnf2 := Bool.and_eq_true _ _ |>.mp hnf
    rcases hri : (runIntcs env ints (some nm)).2 with _ | e
    · rcases hpc : (parConsume ((validOrder (env.order nm)
          ((runParList nodes env ints).map Prod.snd).length).map
            (fun i => (i, ((runParList nodes env ints).map Prod.snd).getD i
              none)))).1 with _ | e
      · have hs2 : (runNext nx env ints).2 = none := by
          simpa only [Node.run, hri, hpc] using hs
        have hallr := runParList_all_none nodes env ints nm hpc
        have ihl := filterIntc_runParList nodes env ints i hc hnf2.1 hallr
        have ihn := filterIntc_runNext nx env ints i hc hnf2.2 hs2
        simp only [Node.run, hri, hpc, visitsOk]
        rw [filterIntc_append, runIntcs_none_trace env ints (some nm) hri,
          filterIntc_map_intcCall, hc, filterIntc_append, ihl, ihn]
        rfl
      · exfalso
        simp only [Node.run, hri, hpc] at hs
        exact absurd hs (Option.some_ne_none e)
    · exfalso
      simp only [Node.run, hri] at hs
      exact absurd hs (Option.some_ne_none e)

theorem filterIntc_runNext (nx : Option Node) (env : Env) (ints : List Nat)
    (i : Nat) (hc : ints.count i = 1) (hnf : noNestedFlowNext nx = true)
    (hs : (runNext nx env ints).2 = none) :
    filterIntc i (runNext nx env ints).1 = visitsOkNext nx env := by
  match nx with
  | none => rfl
  | some n => exact filterIntc_run n env ints i hc hnf hs

theorem filterIntc_runSeqList (nodes : List (Option Node)) (env : Env)
    (ints : List Nat) (i : Nat) (hc : ints.count i = 1)
    (hnf : noNestedFlowList nodes = true)
    (hs : (runSeqList nodes env ints).2 = none) :
    filterIntc i (runSeqList nodes env ints).1 = visitsOkList nodes env := by
  match nodes with
  | [] => rfl
  | none :: rest =>
    have hnf2 := Bool.and_eq_true _ _ |>.mp hnf
    have ih := filterIntc_runSeqList rest env ints i hc hnf2.2
      (by simpa only [runSeqList] using hs)
    simp only [runSeqList, visitsOkList, visitsOkNext] at ih ⊢
    rw [ih]
    rfl
  | some n :: rest =>
    have hnf2 := Bool.and_eq_true _ _ |>.mp hnf
    rcases hr : (n.run env ints).2 with _ | e
    · have hs2 : (runSeqList rest env ints).2 = none := by
        simpa only [runSeqList, hr] using hs
      have ihn := filterIntc_run n env ints i hc hnf2.1 hr
      have ihl := filterIntc_runSeqList rest env ints i hc hnf2.2 hs2
      simp only [runSeqList, hr, visitsOkList, visitsOkNext]
      rw [filterIntc_append, ihn, ihl]
    · exfalso
      simp only [runSeqList, hr] at hs
      exact absurd hs (Option.some_ne_none e)

theorem filterIntc_runParList (nodes : List (Option Node)) (env : Env)
    (ints : List Nat) (i : Nat) (hc : ints.count i = 1)
    (hnf : noNestedFlowList nodes = true)
    (hs : ∀ r ∈ runParList nodes env ints, r.2 = none) :
    filterIntc i ((runParList nodes env ints).map Prod.fst).flatten
      = visitsOkList nodes env := by
  match nodes with
  | [] => rfl
  | none :: rest =>
    have hnf2 := Bool.and_eq_true _ _ |>.mp hnf
    have ih := filterIntc_runParList rest env ints i hc hnf2.2
      (fun r hr => hs r (List.mem_cons_of_mem _ hr))
    simp only [runParList, List.map_cons, List.flatten_cons, visitsOkList,
      visitsOkNext, List.nil_append]
    rw [ih]
  | some n :: rest =>
    have hnf2 := Bool.and_eq_true _ _ |>.mp hnf
    have hr : (n.run env ints).2 = none :=
      hs _ (List.mem_cons_self (n.run env ints) (runParList rest env ints))
    have ihn := filterIntc_run n env ints i hc hnf2.1 hr
    have ihl := filterIntc_runParList rest env ints i hc hnf2.2
      (fun r hrm => hs r (List.mem_cons_of_mem (n.run env ints) hrm))
    simp only [runParList, List.map_cons, List.flatten_cons, visitsOkList,
      visitsOkNext]
    rw [filterIntc_append, ihn, ihl]

end

/-- C4: for a conditional node whose interceptors succeed, the `trueBranch`
runs (its full trace appears) exactly when the predicate is true and the
branch is non-nil; whatever the predicate returned, execution then proceeds
to the conditional's own `next` — unless the branch failed, in which case
that failure is returned and `next` does not run; a false predicate (or a nil
branch) is a pass-through straight to `next`. -/
theorem C4_conditional_branch_then_always_next (nm : String) (cid : Nat)
    (br next : Option Node) (env : Env) (ints : List Nat)
    (hi : (runIntcs env ints (some nm)).2 = none) :
    (∀ tb, br = some tb → env.cond cid = true → (tb.run env ints).2 = none →
      (Node.conditionalNode nm cid br next).run env ints
        = ((runIntcs env ints (some nm)).1 ++ Event.condCall cid nm true ::
            ((tb.run env ints).1 ++ (runNext next env ints).1),
            (runNext next env ints).2))
    ∧ (∀ tb e, br = some tb → env.cond cid = true →
        (tb.run env ints).2 = some e →
      (Node.conditionalNode nm cid br next).run env ints
        = ((runIntcs env ints (some nm)).1 ++ Event.condCall cid nm true ::
            (tb.run env ints).1, some e))
    ∧ (env.cond cid = false →
      (Node.conditionalNode nm cid br next).run env ints
        = ((runIntcs env ints (some nm)).1 ++ Event.condCall cid nm false ::
            (runNext next env ints).1, (runNext next env ints).2))
    ∧ (br = none →
      (Node.conditionalNode nm cid br next).run env ints
        = ((runIntcs env ints (some nm)).1 ++
            Event.condCall cid nm (env.cond cid) ::
            (runNext next env ints).1, (runNext next env ints).2)) := by
  refine ⟨?_, ?_, ?_, ?_⟩
  · intro tb hbr hc htb
    subst hbr
    simp only [Node.run, hi, hc, htb]
  · intro tb e hbr hc htb
    subst hbr
    simp only [Node.run, hi, hc, htb]
  · intro hc
    cases br with
    | none => simp only [Node.run, hi, hc]
    | some tb => simp only [Node.run, hi, hc]
  · intro hbr
    subst hbr
    cases hb : env.cond cid with
    | false => simp only [Node.run, hi, hb]
    | true => simp only [Node.run, hi, hb]

/-- Witness for C4: a true predicate with a successful branch and a
successor action node. -/
theorem C4_witness :
    ((runIntcs env0 [] (some "c")).2 = none) ∧
      (Node.conditionalNode "c" 0 (some (Do "t" 2)) (some (Do "n" 3))).run
          env0 []
        = ((runIntcs env0 [] (some "c")).1 ++ Event.condCall 0 "c" true ::
            (((Do "t" 2).run env0 []).1 ++
              (runNext (some (Do "n" 3)) env0 []).1),
            (runNext (some (Do "n" 3)) env0 []).2) :=
  ⟨rfl, (C4_conditional_branch_then_always_next "c" 0 (some (Do "t" 2))
      (some (Do "n" 3)) env0 [] rfl).1 (Do "t" 2) rfl rfl rfl⟩

theorem chainNames_setLastNext : ∀ (h x : Node),
    noFlowTop (some h) = true →
    chainNames (some (setLastNext h x))
      = chainNames (some h) ++ chainNames (some x)
  | .doNode nm fid none, x, _ => by
      simp [setLastNext, chainNames]
  | .doNode nm fid (some nx), x, hf => by
      have ih := chainNames_setLastNext nx x (by simpa [noFlowTop] using hf)
      simp only [setLastNext, chainNames, List.cons_append] at ih ⊢
      rw [ih]
  | .conditionalNode nm cid br none, x, _ => by
      simp [setLastNext, chainNames]
  | .conditionalNode nm cid br (some nx), x, hf => by
      have ih := chainNames_setLastNext nx x (by simpa [noFlowTop] using hf)
      simp only [setLastNext, chainNames, List.cons_append] at ih ⊢
      rw [ih]
  | .sequenceNode nm nodes none, x, _ => by
      simp [setLastNext, chainNames]
  | .sequenceNode nm nodes (some nx), x, hf => by
      have ih := chainNames_setLastNext nx x (by simpa [noFlowTop] using hf)
      simp only [setLastNext, chainNames, List.cons_append] at ih ⊢
      rw [ih]
  | .parallelNode nm nodes none, x, _ => by
      simp [setLastNext, chainNames]
  | .parallelNode nm nodes (some nx), x, hf => by
      have ih := chainNames_setLastNext nx x (by simpa [noFlowTop] using hf)
      simp only [setLastNext, chainNames, List.cons_append] at ih ⊢
      rw [ih]
  | .flowNode nm h fi ni, x, hf => by
      simp [noFlowTop] at hf

theorem chainLen_eq_length_chainNames : ∀ (o : Option Node),
    chainLen o = (chainNames o).length
  | none => by simp [chainLen, chainNames]
  | some (.doNode nm fid nx) => by
      simp [chainLen, chainNames, chainLen_eq_length_chainNames nx,
        Nat.add_comm]
  | some (.conditionalNode nm cid br nx) => by
      simp [chainLen, chainNames, chainLen_eq_length_chainNames nx,
        Nat.add_comm]
  | some (.sequenceNode nm nodes nx) => by
      simp [chainLen, chainNames, chainLen_eq_length_chainNames nx,
        Nat.add_comm]
  | some (.parallelNode nm nodes nx) => by
      simp [chainLen, chainNames, chainLen_eq_length_chainNames nx,
        Nat.add_comm]
  | some (.flowNode nm h fi ni) => by simp [chainLen, chainNames]

theorem Then_flow_chainOf (nm1 nm2 : String) (l1 l2 : List Nat)
    (fi ni fi2 ni2 : List Nat) (hl2 : l2 ≠ []) :
    Flow.Then ⟨nm1, chainOf l1, fi, ni⟩
        (Node.flowNode nm2 (chainOf l2) fi2 ni2)
      = ⟨nm1, chainOf (l1 ++ l2), fi, ni⟩ := by
  obtain ⟨j, l2a, rfl⟩ : ∃ j l2a, l2 = j :: l2a := by
    cases l2 with
    | nil => exact absurd rfl hl2
    | cons j l2a => exact ⟨j, l2a, rfl⟩
  show Flow.appendFlow ⟨nm1, chainOf l1, fi, ni⟩
      ⟨nm2, chainOf (j :: l2a), fi2, ni2⟩ = _
  cases l1 with
  | nil =>
    simp only [Flow.appendFlow, chainOf, List.foldr_cons, List.foldr_nil,
      List.nil_append]
  | cons i l1a =>
    simp only [Flow.appendFlow, chainOf_cons]
    rw [setLastNext_chainOf i l1a (Node.doNode (toString j) j (chainOf l2a)),
      chainOfExt_chainOf l1a (j :: l2a)
        (Node.doNode (toString j) j (chainOf l2a)) rfl]
    simp only [List.cons_append, chainOf_cons]

/-- C5: `Then` applied to a flow splices rather than wraps. Structurally,
for any flow `f1` (whose chain, as the builder guarantees, has no nested
flow in chain position) and non-empty flow `f2`: the resulting chain is
`f1`'s chain followed by `f2`'s chain, its length is the sum of the two
lengths, and the result keeps `f1`'s interceptor lists. At run time, for
action-node flows: running the spliced flow executes `f1`'s actions then
`f2`'s actions in order, with `f1`'s flow-level and node-level interceptors
applied uniformly to all of them (and `f2`'s own interceptor lists dropped). -/
theorem C5_then_splices_not_wraps :
    (∀ (f1 f2 : Flow), noFlowTop f1.head = true → f2.head.isSome = true →
      chainNames (f1.Then f2.toNode).head
          = chainNames f1.head ++ chainNames f2.head
        ∧ chainLen (f1.Then f2.toNode).head
            = chainLen f1.head + chainLen f2.head
        ∧ (f1.Then f2.toNode).flowInterceptors = f1.flowInterceptors
        ∧ (f1.Then f2.toNode).nodeInterceptors = f1.nodeInterceptors)
    ∧ (∀ (nm1 nm2 : String) (l1 l2 fi ni fi2 ni2 : List Nat) (env : Env),
      l2 ≠ [] →
      (∀ j ∈ fi, env.intc j none = none) →
      (∀ j ∈ ni, ∀ s, env.intc j s = none) →
      (∀ i ∈ l1 ++ l2, env.act i = none) →
      Flow.Run (Flow.Then ⟨nm1, chainOf l1, fi, ni⟩
          (Node.flowNode nm2 (chainOf l2) fi2 ni2)) env
        = (fi.map (fun j => Event.intcCall j none) ++ actTrace ni (l1 ++ l2),
            none)) := by
  constructor
  · intro f1 f2 hnf hne
    obtain ⟨gh, hgh⟩ := Option.isSome_iff_exists.mp hne
    obtain ⟨n1, h1, fi1, ni1⟩ := f1
    obtain ⟨n2, h2, fi2b, ni2b⟩ := f2
    simp only at hgh hnf ⊢
    subst hgh
    cases h1 with
    | none =>
      refine ⟨?_, ?_, rfl, rfl⟩ <;>
        simp [Flow.Then, Flow.toNode, Flow.appendFlow, chainNames, chainLen]
    | some h =>
      have hnames := chainNames_setLastNext h gh hnf
      refine ⟨?_, ?_, rfl, rfl⟩
      · simpa [Flow.Then, Flow.toNode, Flow.appendFlow] using hnames
      · simp only [Flow.Then, Flow.toNode, Flow.appendFlow,
          chainLen_eq_length_chainNames]
        rw [hnames]
        simp [List.length_append]
  · intro nm1 nm2 l1 l2 fi ni fi2 ni2 env hl2 hfi hni ha
    rw [Then_flow_chainOf nm1 nm2 l1 l2 fi ni fi2 ni2 hl2]
    obtain ⟨h, hh⟩ : ∃ h, chainOf (l1 ++ l2) = some h := by
      cases hl : l1 ++ l2 with
      | nil => exact absurd (List.append_eq_nil.mp hl).2 hl2
      | cons a as =>
        exact ⟨Node.doNode (toString a) a (chainOf as), by rw [chainOf_cons]⟩
    have hrc := runChain_ok (l1 ++ l2) env ni hni ha
    rw [hh] at hrc
    simp only [runNext] at hrc
    simp only [Flow.Run, hh, runIntcs_ok env fi none hfi, hrc]

/-- Witness for C5: splicing a two-action flow onto a one-action flow. -/
theorem C5_witness :
    (noFlowTop (chainOf [0]) = true) ∧
      ((chainOf [1, 2]).isSome = true) ∧
      chainNames (Flow.Then ⟨"x", chainOf [0], [], []⟩
          (Flow.toNode ⟨"y", chainOf [1, 2], [], []⟩)).head
        = chainNames (chainOf [0]) ++ chainNames (chainOf [1, 2]) ∧
      Flow.Run (Flow.Then ⟨"x", chainOf [0], [4], [7]⟩
          (Node.flowNode "y" (chainOf [1, 2]) [5] [8])) env0
        = ([4].map (fun j => Event.intcCall j none) ++
            actTrace [7] ([0] ++ [1, 2]), none) :=
  ⟨by simp [noFlowTop, chainOf], rfl,
    ((C5_then_splices_not_wraps.1 ⟨"x", chainOf [0], [], []⟩
      ⟨"y", chainOf [1, 2], [], []⟩ (by simp [noFlowTop, chainOf]) rfl).1),
    (C5_then_splices_not_wraps.2 "x" "y" [0] [1, 2] [4] [7] [5] [8] env0
      (by decide) (fun j _ => rfl) (fun j _ s => rfl) (fun i _ => rfl))⟩

/-- C7 (counterexample): a successful run of a flow with node-level
interceptor 7 whose chain is the single sequence node "s" built by
`InSequence` around the action node "a" visits both nodes, yet interceptor 7
fires only once — for "a" — and never for the visited sequence node "s":
`sequenceNode.run` (flow.go 92-104) does not invoke the interceptors on the
sequence node itself, so the claim that a node-level interceptor fires
exactly once per visited node fails at this input. -/
theorem C7_counterexample :
    ((Flow.Run ⟨"f", some (InSequence "s" [some (Do "a" 0)]), [], [7]⟩
        env0).2 = none)
    ∧ (Flow.Run ⟨"f", some (InSequence "s" [some (Do "a" 0)]), [], [7]⟩
          env0).1
        = [Event.intcCall 7 (some "a"), Event.actCall 0 "a"]
    ∧ some "s" ∉ filterIntc 7
        (Flow.Run ⟨"f", some (InSequence "s" [some (Do "a" 0)]), [], [7]⟩
          env0).1 := by
  refine ⟨rfl, rfl, by decide⟩

/-- C7 (amended): during a successful run, a node-level interceptor
occurring once in the list fires exactly once per visited action,
conditional and parallel node — including nodes nested inside Sequence,
Parallel and Conditional trueBranch sub-chains, and in visit order — but not
for sequence nodes themselves, which invoke no interceptor on themselves
(and nested flows, excluded here, substitute their own lists); moreover, on
the node variants that do invoke interceptors, all of them fire before any
of the node's own work appears in the trace. Stated for a whole flow `Run`
(flow-level calls contribute their own `none`-node events) and for a node
`run`. -/
theorem C7_amended :
    (∀ (f : Flow) (env : Env) (i : Nat) (h : Node),
      f.head = some h → f.nodeInterceptors.count i = 1 →
      noNestedFlow h = true → (f.Run env).2 = none →
      filterIntc i (f.Run env).1
        = List.replicate (f.flowInterceptors.count i) (none : Option String)
            ++ visitsOk h env)
    ∧ (∀ (n : Node) (env : Env) (ints : List Nat) (i : Nat),
      ints.count i = 1 → noNestedFlow n = true → (n.run env ints).2 = none →
      filterIntc i (n.run env ints).1 = visitsOk n env)
    ∧ (∀ (n : Node) (env : Env) (ints : List Nat),
      selfIntc n = true → (n.run env ints).2 = none →
      ∃ rest, (n.run env ints).1
        = ints.map (fun j => Event.intcCall j (some n.nodeName)) ++ rest) := by
  refine ⟨?_, ?_, ?_⟩
  · intro f env i h hh hc hnf hs
    obtain ⟨nm, ho, fi, ni⟩ := f
    simp only at hh hc hs ⊢
    subst hh
    rcases hrf : (runIntcs env fi none).2 with _ | e
    · have hs2 : (h.run env ni).2 = none := by
        simpa only [Flow.Run, hrf] using hs
      simp only [Flow.Run, hrf]
      rw [filterIntc_append, runIntcs_none_trace env fi none hrf,
        filterIntc_map_intcCall, filterIntc_run h env ni i hc hnf hs2]
    · exfalso
      simp only [Flow.Run, hrf] at hs
      exact absurd hs (Option.some_ne_none e)
  · exact filterIntc_run
  · intro n env ints hself hs
    match n, hself with
    | .doNode nm fid nx, _ =>
      rcases hri : (runIntcs env ints (some nm)).2 with _ | e
      · rcases hact : env.act fid with _ | e
        · refine ⟨Event.actCall fid nm :: (runNext nx env ints).1, ?_⟩
          simp only [Node.run, hri, hact, Node.nodeName]
          rw [runIntcs_none_trace env ints (some nm) hri]
        · exfalso
          simp only [Node.run, hri, hact] at hs
          exact absurd hs (Option.some_ne_none e)
      · exfalso
        simp only [Node.run, hri] at hs
        exact absurd hs (Option.some_ne_none e)
    | .conditionalNode nm cid br nx, _ =>
      rcases hri : (runIntcs env ints (some nm)).2 with _ | e
      · match br, hb : env.cond cid with
        | some tb, true =>
          rcases htb : (tb.run env ints).2 with _ | e
          · refine ⟨Event.condCall cid nm true ::
              ((tb.run env ints).1 ++ (runNext nx env ints).1), ?_⟩
            simp only [Node.run, hri, hb, htb, Node.nodeName]
            rw [runIntcs_none_trace env ints (some nm) hri]
          · exfalso
            simp only [Node.run, hri, hb, htb] at hs
            exact absurd hs (Option.some_ne_none e)
        | some tb, false =>
          refine ⟨Event.condCall cid nm false :: (runNext nx env ints).1, ?_⟩
          simp only [Node.run, hri, hb, Node.nodeName]
          rw [runIntcs_none_trace env ints (some nm) hri]
        | none, hbv =>
          refine ⟨Event.condCall cid nm (env.cond cid) ::
            (runNext nx env ints).1, ?_⟩
          simp only [Node.run, hri, hb, Node.nodeName]
          rw [runIntcs_none_trace env ints (some nm) hri]
      · exfalso
        simp only [Node.run, hri] at hs
        exact absurd hs (Option.some_ne_none e)
    | .parallelNode nm nodes nx, _ =>
      rcases hri : (runIntcs env ints (some nm)).2 with _ | e
      · rcases hpc : (parConsume ((validOrder (env.order nm)
            ((runParList nodes env ints).map Prod.snd).length).map
              (fun i => (i, ((runParList nodes env ints).map Prod.snd).getD i
                none)))).1 with _ | e
        · refine ⟨((runParList nodes env ints).map Prod.fst).flatten ++
            (runNext nx env ints).1, ?_⟩
          simp only [Node.run, hri, hpc, Node.nodeName]
          rw [runIntcs_none_trace env ints (some nm) hri]
        · exfalso
          simp only [Node.run, hri, hpc] at hs
          exact absurd hs (Option.some_ne_none e)
      · exfalso
        simp only [Node.run, hri] at hs
        exact absurd hs (Option.some_ne_none e)

/-- Witness for C7 (amended): a flow of an action node followed by a
conditional with a true branch, one flow-level interceptor 4 and one
node-level interceptor 7. -/
theorem C7_witness :
    ((⟨"f", some (Node.doNode "a" 0 (some (Node.conditionalNode "c" 0
        (some (Do "t" 2)) none))), [4], [7]⟩ : Flow).head
      = some (Node.doNode "a" 0 (some (Node.conditionalNode "c" 0
        (some (Do "t" 2)) none)))) ∧
    (([7] : List Nat).count 7 = 1) ∧
    (noNestedFlow (Node.doNode "a" 0 (some (Node.conditionalNode "c" 0
        (some (Do "t" 2)) none))) = true) ∧
    ((Flow.Run ⟨"f", some (Node.doNode "a" 0 (some (Node.conditionalNode "c" 0
        (some (Do "t" 2)) none))), [4], [7]⟩ env0).2 = none) ∧
    filterIntc 7 (Flow.Run ⟨"f", some (Node.doNode "a" 0
        (some (Node.conditionalNode "c" 0 (some (Do "t" 2)) none))), [4],
        [7]⟩ env0).1
      = List.replicate (([4] : List Nat).count 7) (none : Option String) ++
          visitsOk (Node.doNode "a" 0 (some (Node.conditionalNode "c" 0
            (some (Do "t" 2)) none))) env0 := by
  have hnf : noNestedFlow (Node.doNode "a" 0 (some (Node.conditionalNode "c" 0
      (some (Do "t" 2)) none))) = true := by
    simp [noNestedFlow, noNestedFlowNext, noNestedFlowList, Do]
  exact ⟨rfl, by decide, hnf, rfl,
    C7_amended.1 ⟨"f", some (Node.doNode "a" 0 (some (Node.conditionalNode
      "c" 0 (some (Do "t" 2)) none))), [4], [7]⟩ env0 7 _ rfl (by decide)
      hnf rfl⟩

end Mirage
